import Mathlib

/-!
A shallow embedding of the `keyframe` animation library (keyframe blending and the
`AnimationSequence` engine) together with proofs about the claims on its specification.

Modelling conventions:
* Rust `f64`/`f32` values are modelled as exact rationals (`ℚ`); arithmetic is exact,
  so rounding and NaN behaviour of IEEE floats are outside the model.  The finite
  *range* of each float type is modelled explicitly (`FloatBounds`), because the
  library's `as_t` helper saturates at `T::min_value()`/`T::max_value()`.
* An easing curve (`Arc<dyn EasingFunction>`) is modelled by its `y` method,
  a plain function `ℚ → ℚ`.
* Code paths that panic in Rust (vector index out of bounds) or never return
  (unbounded recursion) are modelled with `Option`: `none` means the call does
  not return normally.  Self-recursive playback methods take explicit fuel;
  returning `none` at every fuel value means the call never returns.
* `Vec::sort_unstable_by` on the time key is modelled by an insertion sort by time;
  on lists without duplicate times (the only lists the library sorts after its
  collision checks) every comparison sort produces the same result.
-/

namespace KeyframeLib

/-- The representable range of a Rust float type (`T::min_value()`/`T::max_value()`). -/
structure FloatBounds where
  fmin : ℚ
  fmax : ℚ
deriving DecidableEq

/-- The range of `f64`: largest finite double is `2^1024 - 2^971`. -/
def f64Bounds : FloatBounds := ⟨-(2 ^ 1024 - 2 ^ 971), 2 ^ 1024 - 2 ^ 971⟩

/-- The range of `f32`: largest finite single is `2^128 - 2^104`. -/
def f32Bounds : FloatBounds := ⟨-(2 ^ 128 - 2 ^ 104), 2 ^ 128 - 2 ^ 104⟩

/-- `as_t` from `src/lib.rs` / `src/easing.rs`: convert an `f64` value to the target
float type, saturating at the type's `min_value`/`max_value`:
`if value > max then max else if value < min then min else value`. -/
def as_t (F : FloatBounds) (value : ℚ) : ℚ :=
  if value > F.fmax then F.fmax
  else if value < F.fmin then F.fmin
  else value

/-- The `CanTween` trait from `src/easing.rs` (`time` is an `f64`, modelled as `ℚ`). -/
class CanTween (α : Type) where
  ease : α → α → ℚ → α

/-- `impl CanTween for f32`/`f64` in `src/easing.rs`:
`as_t(as_f64(from) + as_f64(to - from) * as_f64(time))`; `as_f64` is the identity
in the exact-rational model, the target range is `F`. -/
def floatEase (F : FloatBounds) (a b t : ℚ) : ℚ := as_t F (a + (b - a) * t)

/-- `f64` is the canonical scalar `CanTween` type of the model. -/
instance : CanTween ℚ := ⟨floatEase f64Bounds⟩

/-- Modelled from the spec (§4.1): scalar ease is `from + (to - from) * t` computed in a
wide-precision float type, then clamped to the target type's representable range. -/
def specScalarEase (F : FloatBounds) (a b t : ℚ) : ℚ :=
  min F.fmax (max F.fmin (a + (b - a) * t))

/-- The `y` method of `functions::Linear` (`src/functions/static_functions.rs`). -/
def Linear : ℚ → ℚ := fun x => x

/-- `ease_with_unbounded_time` from `src/easing.rs`:
`V::ease(from, to, function.y(time))`. -/
def ease_with_unbounded_time [CanTween α] (f : ℚ → ℚ) (a b : α) (t : ℚ) : α :=
  CanTween.ease a b (f t)

/-- `ease` from `src/easing.rs`: clamps `time` to `[0, 1]` before evaluating the curve. -/
def ease [CanTween α] (f : ℚ → ℚ) (a b : α) (t : ℚ) : α :=
  ease_with_unbounded_time f a b (if t < 0 then 0 else if t > 1 then 1 else t)

/-- `ease_with_scaled_time` from `src/easing.rs`: clamps `time` to `[0, max_time]` and
normalizes by `max_time`. -/
def ease_with_scaled_time [CanTween α] (f : ℚ → ℚ) (a b : α) (t maxTime : ℚ) : α :=
  ease f a b (if t < 0 then 0 else if t > maxTime then 1 else t / maxTime)

/-- `Keyframe<T>` from `src/keyframe.rs`: a value, a start time and the easing curve
used when blending toward the next keyframe (the curve is identified with its
`y` method). -/
structure Keyframe (α : Type) where
  value : α
  time : ℚ
  function : ℚ → ℚ

/-- `Keyframe::new`: negative times are clamped to `0.0`. -/
def Keyframe.new (value : α) (time : ℚ) (function : ℚ → ℚ) : Keyframe α :=
  ⟨value, if time < 0 then 0 else time, function⟩

/-- `Keyframe::tween_to` from `src/keyframe.rs` (the match arms, in source order). -/
def Keyframe.tween_to [CanTween α] (self next : Keyframe α) (t : ℚ) : α :=
  if t < self.time then self.value
  else if t > next.time then next.value
  else if next.time < self.time then next.value
  else
    CanTween.ease self.value next.value
      (self.function (ease_with_scaled_time Linear (0 : ℚ) 1 (t - self.time) (next.time - self.time)))

/-- `AnimationSequenceError` / the `Result` of `AnimationSequence::insert` and
`insert_many` (`Ok(())` or `Err(TimeCollision(time))`). -/
inductive InsertResult
  | ok : InsertResult
  | timeCollision : ℚ → InsertResult
deriving DecidableEq

/-- `AnimationSequence<T>` from `src/sequence.rs`: the keyframe vector, the cached
cursor (`keyframe: Option<usize>`) and the current playback time. -/
structure AnimationSequence (α : Type) where
  sequence : List (Keyframe α)
  keyframe : Option Nat
  time : ℚ

namespace AnimationSequence

/-- `AnimationSequence::new`. -/
def new : AnimationSequence α := ⟨[], none, 0⟩

/-- `AnimationSequence::duration`:
`self.sequence.get(self.sequence.len().saturating_sub(1)).map_or(0.0, |kf| kf.time)`
(`Nat` subtraction saturates exactly like `usize::saturating_sub`). -/
def duration (s : AnimationSequence α) : ℚ :=
  ((s.sequence[s.sequence.length - 1]?).map Keyframe.time).getD 0

/-- `AnimationSequence::has_keyframe_at`. -/
def has_keyframe_at (s : AnimationSequence α) (timestamp : ℚ) : Bool :=
  s.sequence.any (fun k => k.time = timestamp)

/-- `AnimationSequence::keyframes` (the number of keyframes). -/
def keyframes (s : AnimationSequence α) : Nat := s.sequence.length

/-- The time of the entry at index `i` (`self.sequence[i].time`); the default for an
out-of-bounds index is never used, every read below is in bounds. -/
def timeAt (seq : List (Keyframe α)) (i : Nat) : ℚ :=
  ((seq[i]?).map Keyframe.time).getD 0

/-- The backward scan of `update_current_keyframe`
(`for i in (0..k).rev() { if self.sequence[i].time <= self.time { return Some(i) } ... None }`):
the greatest `i < k` whose time is `≤ t`, or `none`.  All indices visited are `< k`,
which is within bounds at every call site. -/
def scanDown (seq : List (Keyframe α)) (t : ℚ) : Nat → Option Nat
  | 0 => none
  | j + 1 => if timeAt seq j ≤ t then some j else scanDown seq t j

/-- The forward scan of `update_current_keyframe`
(`for i in k..len { if self.sequence[i].time > self.time { break } else { Some(i) } }`),
walking the suffix `seq.drop i` with `i` the absolute index of its head and `cur` the
cursor value accumulated so far. -/
def scanUp (t : ℚ) : List (Keyframe α) → Nat → Option Nat → Option Nat
  | [], _, cur => cur
  | kf :: rest, i, cur => if kf.time > t then cur else scanUp t rest (i + 1) (some i)

/-- The `Some(k)` branch of `update_current_keyframe`.  When `k` is out of bounds the
Rust code indexes `self.sequence[k]` and panics (`none`); otherwise it runs the
backward scan (which leaves the cursor at `Some(0)` untouched when `k = 0`, because
the loop range `(0..0).rev()` is empty) or the forward scan. -/
def updateSome (s : AnimationSequence α) (k : Nat) : Option (AnimationSequence α) :=
  if hk : k < s.sequence.length then
    if (s.sequence.get ⟨k, hk⟩).time > s.time then
      some { s with keyframe := if k = 0 then some 0 else scanDown s.sequence s.time k }
    else
      some { s with keyframe := scanUp s.time (s.sequence.drop k) k none }
  else none

/-- `AnimationSequence::update_current_keyframe`.  The two early returns handle
`time == 0.0` and `time == duration()`; the `None` branch sets the cursor to
`Some(0)` and recurses, which (the early returns being unaffected) is exactly the
`Some(0)` branch. -/
def update_current_keyframe (s : AnimationSequence α) : Option (AnimationSequence α) :=
  if s.sequence.length ≠ 0 ∧ s.time = 0 then some { s with keyframe := some 0 }
  else if s.sequence.length ≠ 0 ∧ s.time = s.duration then
    some { s with keyframe := some (s.sequence.length - 1) }
  else
    match s.keyframe with
    | some k => updateSome s k
    | none =>
      if 0 < s.sequence.length then updateSome { s with keyframe := some 0 } 0
      else some s

/-- The by-time comparison used by every `sort_unstable_by` call in `src/sequence.rs`. -/
def timeLE (a b : Keyframe α) : Prop := a.time ≤ b.time

instance : DecidableRel (@timeLE α) := fun a b => inferInstanceAs (Decidable (a.time ≤ b.time))

instance : IsTotal (Keyframe α) timeLE := ⟨fun a b => le_total a.time b.time⟩

instance : IsTrans (Keyframe α) timeLE := ⟨fun _ _ _ => le_trans⟩

/-- Model of `self.sequence.sort_unstable_by(|k, k2| k.time.partial_cmp(&k2.time) ...)`:
a sort by the time key.  On lists with pairwise distinct times (the only lists the
library sorts, thanks to its collision checks) every comparison sort agrees with this
insertion sort. -/
def sortByTime (l : List (Keyframe α)) : List (Keyframe α) :=
  l.insertionSort timeLE

/-- `AnimationSequence::insert`: rejects a time collision, otherwise appends when the
new time is greater than the last entry's, *prepends at index 0* when it is less than
the last entry's, and pushes-then-sorts otherwise; finally recomputes the cursor. -/
def insert (s : AnimationSequence α) (kf : Keyframe α) :
    Option (AnimationSequence α × InsertResult) :=
  if s.has_keyframe_at kf.time then some (s, .timeCollision kf.time)
  else
    let seq' : List (Keyframe α) :=
      match s.sequence.getLast? with
      | some last =>
        if kf.time > last.time then s.sequence ++ [kf]
        else if kf.time < last.time then kf :: s.sequence
        else sortByTime (s.sequence ++ [kf])
      | none => sortByTime (s.sequence ++ [kf])
    (update_current_keyframe { s with sequence := seq' }).map (fun s' => (s', .ok))

/-- The loop of `AnimationSequence::insert_many`: push each keyframe
(`insert_into_vec`), stopping at the first time collision. -/
def insertManyLoop (s : AnimationSequence α) :
    List (Keyframe α) → AnimationSequence α × Option ℚ
  | [] => (s, none)
  | kf :: rest =>
    if s.has_keyframe_at kf.time then (s, some kf.time)
    else insertManyLoop { s with sequence := s.sequence ++ [kf] } rest

/-- `AnimationSequence::insert_many`: on the first collision the `?` operator returns
the error immediately — the keyframes already pushed stay in the vector and neither
the deferred sort nor the cursor update runs. -/
def insert_many (s : AnimationSequence α) (l : List (Keyframe α)) :
    Option (AnimationSequence α × InsertResult) :=
  match insertManyLoop s l with
  | (s', some t) => some (s', .timeCollision t)
  | (s', none) =>
    (update_current_keyframe { s' with sequence := sortByTime s'.sequence }).map
      (fun s'' => (s'', .ok))

/-- `AnimationSequence::retain`: filter by the predicate on times; if anything was
removed, clamp `time` down to the new duration and recompute the cursor. -/
def retain (s : AnimationSequence α) (f : ℚ → Bool) :
    Option (AnimationSequence α × Bool) :=
  let seq' := s.sequence.filter (fun k => f k.time)
  if seq'.length = s.sequence.length then some ({ s with sequence := seq' }, false)
  else
    let s₁ : AnimationSequence α := { s with sequence := seq' }
    let s₂ : AnimationSequence α :=
      { s₁ with time := if s₁.time > s₁.duration then s₁.duration else s₁.time }
    (update_current_keyframe s₂).map (fun s' => (s', true))

/-- `AnimationSequence::remove`. -/
def remove (s : AnimationSequence α) (timestamp : ℚ) :
    Option (AnimationSequence α × Bool) :=
  s.retain (fun t => t ≠ timestamp)

/-- `AnimationSequence::clear` (`retain(|_| false)`, the returned flag discarded). -/
def clear (s : AnimationSequence α) : Option (AnimationSequence α) :=
  (s.retain (fun _ => false)).map (fun p => p.1)

/-- `AnimationSequence::advance_to`: clamp the timestamp to `[0, duration]`, recompute
the cursor, and return the overflow `timestamp - self.time`. -/
def advance_to (s : AnimationSequence α) (timestamp : ℚ) :
    Option (AnimationSequence α × ℚ) :=
  let t' := if timestamp < 0 then 0
            else if timestamp > s.duration then s.duration
            else timestamp
  (update_current_keyframe { s with time := t' }).map (fun s' => (s', timestamp - t'))

/-- `AnimationSequence::advance_by` (`advance_to(self.time() + duration)`). -/
def advance_by (s : AnimationSequence α) (delta : ℚ) :
    Option (AnimationSequence α × ℚ) :=
  s.advance_to (s.time + delta)

/-- `AnimationSequence::reverse`: remap every time through `duration - time`,
reverse the order (the source removes from the back and pushes), then `advance_to(0.0)`. -/
def reverse (s : AnimationSequence α) : Option (AnimationSequence α) :=
  let d := s.duration
  let seq' := (s.sequence.map (fun k => { k with time := d - k.time })).reverse
  (advance_to { s with sequence := seq' } 0).map (fun p => p.1)

/-- `AnimationSequence::advance_and_maybe_reverse`, with explicit recursion fuel:
`none` means the call does not return within `fuel` recursive steps (the Rust source
has no base case other than a zero overflow). -/
def advance_and_maybe_reverse :
    Nat → AnimationSequence α → ℚ → Option (AnimationSequence α × Bool)
  | 0, _, _ => none
  | fuel + 1, s, delta =>
    (s.advance_by delta).bind (fun p =>
      if p.2 = 0 then some (p.1, false)
      else
        (p.1.reverse).bind (fun s₂ =>
          (if p.2 < 0 then (s₂.advance_to s₂.duration).map (fun q => q.1)
           else some s₂).bind (fun s₃ =>
            (advance_and_maybe_reverse fuel s₃ p.2).map (fun r => (r.1, true)))))

/-- `AnimationSequence::advance_and_maybe_wrap`, with explicit recursion fuel. -/
def advance_and_maybe_wrap :
    Nat → AnimationSequence α → ℚ → Option (AnimationSequence α × Bool)
  | 0, _, _ => none
  | fuel + 1, s, delta =>
    (s.advance_by delta).bind (fun p =>
      if p.2 = 0 then some (p.1, false)
      else
        (p.1.advance_to (if p.2 < 0 then p.1.duration else 0)).bind (fun q =>
          (advance_and_maybe_wrap fuel q.1 p.2).map (fun r => (r.1, true))))

/-- `AnimationSequence::progress`. -/
def progress (s : AnimationSequence α) : ℚ :=
  if s.duration = 0 then 0 else s.time / s.duration

/-- `AnimationSequence::finished`. -/
def finished (s : AnimationSequence α) : Bool := s.time = s.duration

/-- The inner loop of `Vec::dedup_by_key(|k| k.time())`: drop each element whose time
equals the time of the previously retained element `prev`. -/
def dedupAux (prev : Keyframe α) : List (Keyframe α) → List (Keyframe α)
  | [] => []
  | y :: rest => if y.time = prev.time then dedupAux prev rest else y :: dedupAux y rest

/-- `Vec::dedup_by_key(|k| k.time())`: remove consecutive duplicates, keeping the first. -/
def dedupByTime : List (Keyframe α) → List (Keyframe α)
  | [] => []
  | x :: rest => x :: dedupAux x rest

/-- `impl From<Vec<Keyframe<T>>> for AnimationSequence<T>`: sort, dedup consecutive
equal times, recompute the cursor. -/
def fromVec (l : List (Keyframe α)) : Option (AnimationSequence α) :=
  update_current_keyframe ⟨dedupByTime (sortByTime l), none, 0⟩

/-- `impl FromIterator for AnimationSequence` (`me.insert_many(iter).ok()`): the
collision error is discarded and the partially filled sequence is returned. -/
def fromIterator (l : List (Keyframe α)) : Option (AnimationSequence α) :=
  (insert_many new l).map (fun p => p.1)

/-- Modelled from the spec (§3, the cursor invariant): the index of the
greatest-indexed entry whose time is `≤ t`, or `none` if no entry's time is `≤ t`. -/
def lastLE (t : ℚ) : List (Keyframe α) → Option Nat
  | [] => none
  | kf :: rest =>
    match lastLE t rest with
    | some j => some (j + 1)
    | none => if kf.time ≤ t then some 0 else none

/-- The entries are strictly sorted ascending by time (the spec's §3 invariant). -/
def SortedTimes (s : AnimationSequence α) : Prop :=
  List.Pairwise (fun a b => a.time < b.time) s.sequence

/-- Every entry's time is nonnegative (guaranteed by `Keyframe::new`'s clamp). -/
def NonnegTimes (s : AnimationSequence α) : Prop :=
  ∀ kf ∈ s.sequence, 0 ≤ kf.time

/-- `0 ≤ playback_time ≤ duration` (the spec's §3 invariant). -/
def TimeInv (s : AnimationSequence α) : Prop :=
  0 ≤ s.time ∧ s.time ≤ s.duration

end AnimationSequence

/-- A concrete rational-valued keyframe with a `Linear` curve, used in witnesses. -/
def kfQ (v t : ℚ) : Keyframe ℚ := Keyframe.new v t Linear

/-- The observable `(value, time)` pairs of a rational-valued sequence. -/
def pairsVT (s : AnimationSequence ℚ) : List (ℚ × ℚ) :=
  s.sequence.map (fun k => (k.value, k.time))

open AnimationSequence

theorem updateSome_frame {s s' : AnimationSequence α} {k : Nat}
    (h : updateSome s k = some s') : s'.sequence = s.sequence ∧ s'.time = s.time := by
  unfold updateSome at h
  split at h
  · split at h <;> · injection h with h; subst h; exact ⟨rfl, rfl⟩
  · exact absurd h (by simp)

theorem update_frame {s s' : AnimationSequence α}
    (h : update_current_keyframe s = some s') :
    s'.sequence = s.sequence ∧ s'.time = s.time := by
  unfold update_current_keyframe at h
  split at h
  · injection h with h; subst h; exact ⟨rfl, rfl⟩
  split at h
  · injection h with h; subst h; exact ⟨rfl, rfl⟩
  split at h
  · exact updateSome_frame h
  split at h
  · exact updateSome_frame h
  · injection h with h; subst h; exact ⟨rfl, rfl⟩

theorem update_of_time_zero {s : AnimationSequence α}
    (hne : s.sequence ≠ []) (h0 : s.time = 0) :
    update_current_keyframe s = some { s with keyframe := some 0 } := by
  unfold update_current_keyframe
  rw [if_pos ⟨by simpa using hne, h0⟩]

theorem canTween_rat_def (a b t : ℚ) :
    CanTween.ease a b t = floatEase f64Bounds a b t := rfl

theorem one_le_f64max : (1:ℚ) ≤ f64Bounds.fmax := by norm_num [f64Bounds]

theorem f64min_nonpos : f64Bounds.fmin ≤ 0 := by norm_num [f64Bounds]

theorem ease_scaled_linear {t' m : ℚ} (h0 : 0 ≤ t') (hm : t' ≤ m) :
    ease_with_scaled_time Linear (0:ℚ) 1 t' m = t' / m := by
  have hm0 : 0 ≤ m := le_trans h0 hm
  have hx0 : 0 ≤ t' / m := div_nonneg h0 hm0
  have hx1 : t' / m ≤ 1 := by
    rcases eq_or_lt_of_le hm0 with h | h
    · rw [← h, div_zero]; norm_num
    · exact div_le_one_of_le₀ hm (le_of_lt h)
  unfold ease_with_scaled_time ease ease_with_unbounded_time Linear
  rw [if_neg (not_lt.mpr h0), if_neg (not_lt.mpr hm)]
  rw [if_neg (not_lt.mpr hx0), if_neg (not_lt.mpr hx1)]
  rw [canTween_rat_def]
  unfold floatEase as_t
  have e : (0:ℚ) + (1 - 0) * (t' / m) = t' / m := by ring
  rw [e, if_neg (not_lt.mpr (le_trans hx1 one_le_f64max)),
    if_neg (not_lt.mpr (le_trans f64min_nonpos hx0))]

theorem duration_def (s : AnimationSequence α) :
    s.duration = (s.sequence.getLast?.map Keyframe.time).getD 0 := by
  unfold duration
  rw [List.getLast?_eq_getElem?]

theorem duration_congr {s s' : AnimationSequence α}
    (h : s'.sequence = s.sequence) : s'.duration = s.duration := by
  unfold duration
  rw [h]

theorem duration_nonneg {s : AnimationSequence α} (hnn : NonnegTimes s) :
    0 ≤ s.duration := by
  rw [duration_def]
  cases hl : s.sequence.getLast? with
  | none => simp
  | some kf =>
    have : kf ∈ s.sequence := by
      cases hs : s.sequence with
      | nil => rw [hs] at hl; simp at hl
      | cons a l =>
        rw [hs] at hl
        rw [List.getLast?_eq_getLast _ (by simp)] at hl
        injection hl with hl
        rw [← hl]
        exact List.getLast_mem _
    simpa using hnn kf this

theorem timeAt_of_lt {l : List (Keyframe α)} {i : Nat} (h : i < l.length) :
    timeAt l i = l[i].time := by
  unfold timeAt
  rw [List.getElem?_eq_getElem h]
  rfl

theorem lastLE_eq_none {t : ℚ} {l : List (Keyframe α)} :
    lastLE t l = none ↔ ∀ kf ∈ l, t < kf.time := by
  induction l with
  | nil => simp [lastLE]
  | cons kf rest ih =>
    constructor
    · intro h kf' hmem
      rcases List.mem_cons.mp hmem with rfl | hmem'
      · rcases hrest : lastLE t rest with _ | j
        · simp only [lastLE, hrest] at h
          split at h
          · exact absurd h (by simp)
          · exact not_le.mp (by assumption)
        · simp [lastLE, hrest] at h
      · rcases hrest : lastLE t rest with _ | j
        · exact (ih.mp hrest) kf' hmem'
        · simp [lastLE, hrest] at h
    · intro h
      have hrest : lastLE t rest = none :=
        ih.mpr (fun kf' hm => h kf' (List.mem_cons_of_mem _ hm))
      simp only [lastLE, hrest]
      rw [if_neg (not_le.mpr (h kf (List.mem_cons_self _ _)))]

theorem lastLE_some_spec {t : ℚ} {l : List (Keyframe α)} {j : Nat}
    (h : lastLE t l = some j) :
    ∃ hj : j < l.length, l[j].time ≤ t ∧
      ∀ i, (hi : i < l.length) → j < i → t < l[i].time := by
  induction l generalizing j with
  | nil => simp [lastLE] at h
  | cons kf rest ih =>
    rcases hrest : lastLE t rest with _ | j'
    · simp only [lastLE, hrest] at h
      split at h
      · injection h with h
        subst h
        refine ⟨by simp, by simpa using ‹kf.time ≤ t›, ?_⟩
        intro i hi hpos
        match i, hi, hpos with
        | i' + 1, hi, _ =>
          have hi' : i' < rest.length := by simpa using hi
          have := (lastLE_eq_none.mp hrest) rest[i'] (List.getElem_mem hi')
          simpa using this
      · exact absurd h (by simp)
    · simp only [lastLE, hrest] at h
      injection h with h
      subst h
      obtain ⟨hj', hle, hup⟩ := ih hrest
      refine ⟨by simpa using Nat.succ_lt_succ hj', by simpa using hle, ?_⟩
      intro i hi hgt
      match i, hi, hgt with
      | i' + 1, hi, hgt =>
        have := hup i' (by simpa using hi) (Nat.lt_of_succ_lt_succ hgt)
        simpa using this

theorem lastLE_complete {t : ℚ} {l : List (Keyframe α)} {j : Nat} (hj : j < l.length)
    (hle : l[j].time ≤ t) (hup : ∀ i, (hi : i < l.length) → j < i → t < l[i].time) :
    lastLE t l = some j := by
  induction l generalizing j with
  | nil => simp at hj
  | cons kf rest ih =>
    rcases j with _ | j'
    · have hrestnone : lastLE t rest = none := by
        rw [lastLE_eq_none]
        intro kf' hm
        obtain ⟨i', hi', rfl⟩ := List.getElem_of_mem hm
        have := hup (i' + 1) (by simpa using Nat.succ_lt_succ hi') (Nat.succ_pos _)
        simpa using this
      simp only [lastLE, hrestnone]
      rw [if_pos (by simpa using hle)]
    · have hrest : lastLE t rest = some j' := by
        refine ih (by simpa using hj) (by simpa using hle) ?_
        intro i hi hgt
        have := hup (i + 1) (by simpa using Nat.succ_lt_succ hi) (Nat.succ_lt_succ hgt)
        simpa using this
      simp [lastLE, hrest]

theorem sorted_timeLt {l : List (Keyframe α)}
    (hsort : List.Pairwise (fun a b : Keyframe α => a.time < b.time) l)
    {i j : Nat} (hij : i < j) (hj : j < l.length) : l[i].time < l[j].time :=
  (List.pairwise_iff_getElem.mp hsort) i j (lt_trans hij hj) hj hij

theorem scanDown_eq_none {l : List (Keyframe α)} {t : ℚ} {k : Nat}
    (h : ∀ i, i < k → t < timeAt l i) : scanDown l t k = none := by
  induction k with
  | zero => rfl
  | succ k' ih =>
    simp only [scanDown]
    rw [if_neg (not_le.mpr (h k' (Nat.lt_succ_self _)))]
    exact ih (fun i hi => h i (Nat.lt_succ_of_lt hi))

theorem scanDown_eq_some {l : List (Keyframe α)} {t : ℚ} {k j : Nat}
    (hjk : j < k) (hle : timeAt l j ≤ t)
    (hup : ∀ i, j < i → i < k → t < timeAt l i) :
    scanDown l t k = some j := by
  induction k with
  | zero => omega
  | succ k' ih =>
    simp only [scanDown]
    rcases Nat.lt_succ_iff_lt_or_eq.mp hjk with h | h
    · rw [if_neg (not_le.mpr (hup k' h (Nat.lt_succ_self _)))]
      exact ih h (fun i hi hik => hup i hi (Nat.lt_succ_of_lt hik))
    · subst h
      rw [if_pos hle]

theorem scanUp_cur_irrel {l : List (Keyframe α)} {t : ℚ} {i : Nat} (hi : i < l.length)
    (hle : l[i].time ≤ t) (cur cur' : Option Nat) :
    scanUp t (l.drop i) i cur = scanUp t (l.drop i) i cur' := by
  rw [List.drop_eq_getElem_cons hi]
  simp only [scanUp]
  rw [if_neg (not_lt.mpr hle), if_neg (not_lt.mpr hle)]

theorem scanUp_eq {l : List (Keyframe α)} {t : ℚ}
    (hsort : List.Pairwise (fun a b : Keyframe α => a.time < b.time) l) :
    ∀ k, (hk : k < l.length) → l[k].time ≤ t →
      scanUp t (l.drop k) k none = lastLE t l := by
  suffices H : ∀ n k, (hk : k < l.length) → l.length - k = n → l[k].time ≤ t →
      scanUp t (l.drop k) k none = lastLE t l by
    intro k hk hle
    exact H (l.length - k) k hk rfl hle
  intro n
  induction n with
  | zero => intro k hk heq hle; omega
  | succ n ih =>
    intro k hk heq hle
    rw [List.drop_eq_getElem_cons hk]
    simp only [scanUp]
    rw [if_neg (not_lt.mpr hle)]
    by_cases hk1 : k + 1 < l.length
    · by_cases hle1 : l[k + 1].time ≤ t
      · rw [show scanUp t (l.drop (k + 1)) (k + 1) (some k) =
            scanUp t (l.drop (k + 1)) (k + 1) none from scanUp_cur_irrel hk1 hle1 _ _]
        exact ih (k + 1) hk1 (by omega) hle1
      · rw [List.drop_eq_getElem_cons hk1]
        simp only [scanUp]
        rw [if_pos (not_le.mp hle1)]
        refine (lastLE_complete hk hle ?_).symm
        intro i hi hgt
        rcases Nat.eq_or_lt_of_le (Nat.succ_le_of_lt hgt) with h | h
        · subst h
          exact not_le.mp hle1
        · exact lt_trans (not_le.mp hle1) (sorted_timeLt hsort h hi)
    · have hnil : l.drop (k + 1) = [] := List.drop_eq_nil_of_le (by omega)
      rw [hnil]
      simp only [scanUp]
      refine (lastLE_complete hk hle ?_).symm
      intro i hi hgt
      omega

theorem updateSome_cursor {s s' : AnimationSequence α} {k : Nat}
    (hsort : SortedTimes s)
    (h : updateSome s k = some s') :
    (∀ j, lastLE s.time s.sequence = some j → s'.keyframe = some j) ∧
    (lastLE s.time s.sequence = none → s'.keyframe = none ∨ s'.keyframe = some 0) := by
  unfold updateSome at h
  split at h
  case isTrue hk =>
    rw [List.get_eq_getElem] at h
    split at h
    case isTrue hgt =>
      injection h with h
      subst h
      by_cases hk0 : k = 0
      · subst hk0
        constructor
        · intro j hj
          exfalso
          obtain ⟨hjlen, hle, _⟩ := lastLE_some_spec hj
          rcases Nat.eq_zero_or_pos j with rfl | hpos
          · exact absurd hle (not_le.mpr hgt)
          · have h0j := sorted_timeLt hsort hpos hjlen
            have := lt_trans hgt h0j
            exact absurd hle (not_le.mpr (lt_trans hgt h0j))
        · intro _
          right
          simp
      · constructor
        · intro j hj
          obtain ⟨hjlen, hle, hup⟩ := lastLE_some_spec hj
          have hjk : j < k := by
            by_contra hge
            push_neg at hge
            rcases Nat.eq_or_lt_of_le hge with h | hlt
            · subst h
              exact absurd hle (not_le.mpr hgt)
            · have := sorted_timeLt hsort hlt hjlen
              exact absurd hle (not_le.mpr (lt_trans hgt this))
          show (if k = 0 then some 0 else scanDown s.sequence s.time k) = some j
          rw [if_neg hk0]
          refine scanDown_eq_some hjk ?_ ?_
          · rw [timeAt_of_lt hjlen]
            exact hle
          · intro i hji hik
            have hilen : i < s.sequence.length := lt_trans hik hk
            rw [timeAt_of_lt hilen]
            exact hup i hilen hji
        · intro hnone
          show (if k = 0 then some 0 else scanDown s.sequence s.time k) = none ∨
            (if k = 0 then some 0 else scanDown s.sequence s.time k) = some 0
          rw [if_neg hk0]
          left
          refine scanDown_eq_none ?_
          intro i hik
          have hilen : i < s.sequence.length := lt_trans hik hk
          rw [timeAt_of_lt hilen]
          exact (lastLE_eq_none.mp hnone) _ (List.getElem_mem hilen)
    case isFalse hle =>
      injection h with h
      subst h
      have hle' : s.sequence[k].time ≤ s.time := not_lt.mp hle
      constructor
      · intro j hj
        show scanUp s.time (s.sequence.drop k) k none = some j
        rw [scanUp_eq hsort k hk hle']
        exact hj
      · intro hnone
        exfalso
        exact absurd ((lastLE_eq_none.mp hnone) _ (List.getElem_mem hk)) (not_lt.mpr hle')
  case isFalse => exact absurd h (by simp)

theorem update_cursor_aux {s s' : AnimationSequence α}
    (hsort : SortedTimes s) (hnn : NonnegTimes s)
    (h : update_current_keyframe s = some s') :
    (∀ j, lastLE s.time s.sequence = some j → s'.keyframe = some j) ∧
    (lastLE s.time s.sequence = none → s'.keyframe = none ∨ s'.keyframe = some 0) := by
  unfold update_current_keyframe at h
  split at h
  case isTrue hcond =>
    injection h with h
    subst h
    obtain ⟨hlen, ht0⟩ := hcond
    constructor
    · intro j hj
      obtain ⟨hjlen, hle, _⟩ := lastLE_some_spec hj
      show some 0 = some j
      rcases Nat.eq_zero_or_pos j with rfl | hpos
      · rfl
      · exfalso
        have hlen0 : 0 < s.sequence.length := by omega
        have h0lt := sorted_timeLt hsort hpos hjlen
        have h0nn : 0 ≤ s.sequence[0].time := hnn _ (List.getElem_mem hlen0)
        rw [ht0] at hle
        linarith
    · intro _
      right
      rfl
  · split at h
    case isTrue hcond =>
      injection h with h
      subst h
      obtain ⟨hlen, htd⟩ := hcond
      have hlastidx : s.sequence.length - 1 < s.sequence.length := by omega
      have hlastle : s.sequence[s.sequence.length - 1].time ≤ s.time := by
        conv_rhs => rw [htd]
        rw [show s.duration = timeAt s.sequence (s.sequence.length - 1) from rfl,
          timeAt_of_lt hlastidx]
      constructor
      · intro j hj
        obtain ⟨hjlen, hle, hup⟩ := lastLE_some_spec hj
        show some (s.sequence.length - 1) = some j
        congr 1
        by_contra hne
        have hjlt : j < s.sequence.length - 1 := by omega
        exact absurd hlastle (not_le.mpr (hup _ hlastidx hjlt))
      · intro hnone
        exfalso
        exact absurd ((lastLE_eq_none.mp hnone) _ (List.getElem_mem hlastidx))
          (not_lt.mpr hlastle)
    case isFalse =>
        split at h
        case _ k heq => exact updateSome_cursor hsort h
        case _ heq =>
          split at h
          case isTrue hpos => exact updateSome_cursor hsort h
          case isFalse hpos =>
            injection h with h
            subst h
            constructor
            · intro j hj
              have hnil : s.sequence = [] := by
                cases hs : s.sequence with
                | nil => rfl
                | cons a l => rw [hs] at hpos; simp at hpos
              rw [hnil] at hj
              simp [lastLE] at hj
            · intro _
              left
              exact heq

theorem not_has_keyframe_at {s : AnimationSequence α} {t : ℚ}
    (h : ¬ s.has_keyframe_at t = true) : ∀ a ∈ s.sequence, a.time ≠ t := by
  intro a ha
  simp only [has_keyframe_at, List.any_eq_true, not_exists, not_and] at h
  have := h a ha
  simpa using this

theorem loop_pairwise {l : List (Keyframe α)} :
    ∀ {s : AnimationSequence α},
      List.Pairwise (fun a b => a.time ≠ b.time) s.sequence →
      List.Pairwise (fun a b => a.time ≠ b.time) (insertManyLoop s l).1.sequence := by
  induction l with
  | nil => intro s hp; exact hp
  | cons kf rest ih =>
    intro s hp
    simp only [insertManyLoop]
    split
    · exact hp
    · apply ih
      rw [List.pairwise_append]
      refine ⟨hp, List.pairwise_singleton _ _, ?_⟩
      intro a ha b hb
      rw [List.mem_singleton.mp hb]
      exact not_has_keyframe_at (by assumption) a ha

theorem loop_frame {l : List (Keyframe α)} :
    ∀ {s : AnimationSequence α},
      (insertManyLoop s l).1.keyframe = s.keyframe ∧
      (insertManyLoop s l).1.time = s.time := by
  induction l with
  | nil => intro s; exact ⟨rfl, rfl⟩
  | cons kf rest ih =>
    intro s
    simp only [insertManyLoop]
    split
    · exact ⟨rfl, rfl⟩
    · exact ih

theorem loop_none_seq {l : List (Keyframe α)} :
    ∀ {s : AnimationSequence α} {s' : AnimationSequence α},
      insertManyLoop s l = (s', none) → s'.sequence = s.sequence ++ l := by
  induction l with
  | nil =>
    intro s s' h
    injection h with h1 _
    subst h1
    simp
  | cons kf rest ih =>
    intro s s' h
    simp only [insertManyLoop] at h
    split at h
    · injection h with _ h2
      exact absurd h2 (by simp)
    · rw [ih h]
      simp

theorem loop_all_pushed {l : List (Keyframe α)} :
    ∀ {s : AnimationSequence α},
      (∀ a ∈ s.sequence, ∀ b ∈ l, a.time ≠ b.time) →
      List.Pairwise (fun a b => a.time ≠ b.time) l →
      insertManyLoop s l = ({ s with sequence := s.sequence ++ l }, none) := by
  induction l with
  | nil => intro s _ _; simp [insertManyLoop]
  | cons kf rest ih =>
    intro s hdisj hp
    simp only [insertManyLoop]
    rw [if_neg ?hcol]
    case hcol =>
      simp only [has_keyframe_at, List.any_eq_true, not_exists, not_and]
      intro a ha
      simp only [decide_eq_true_eq]
      exact hdisj a ha kf (List.mem_cons_self _ _)
    rw [ih ?hdisj' (List.Pairwise.sublist (List.sublist_cons_self _ _) hp)]
    · simp
    case hdisj' =>
      intro a ha b hb
      rcases List.mem_append.mp ha with ha' | ha'
      · exact hdisj a ha' b (List.mem_cons_of_mem _ hb)
      · rw [List.mem_singleton.mp ha']
        exact (List.pairwise_cons.mp hp).1 b hb

theorem updateSome_isSome {s : AnimationSequence α} {k : Nat}
    (hk : k < s.sequence.length) : (updateSome s k).isSome = true := by
  unfold updateSome
  rw [dif_pos hk]
  split <;> simp

theorem update_isSome_of_keyframe_none {s : AnimationSequence α}
    (h : s.keyframe = none) : (update_current_keyframe s).isSome = true := by
  unfold update_current_keyframe
  split
  · simp
  split
  · simp
  rw [h]
  split
  · rename_i k heq
    exact Option.noConfusion heq
  · split
    · exact updateSome_isSome (by assumption)
    · simp

theorem sortByTime_perm (l : List (Keyframe α)) : List.Perm (sortByTime l) l :=
  List.perm_insertionSort timeLE l

theorem sortByTime_pairwise_ne {l : List (Keyframe α)}
    (h : List.Pairwise (fun a b => a.time ≠ b.time) l) :
    List.Pairwise (fun a b => a.time ≠ b.time) (sortByTime l) :=
  (List.Perm.pairwise_iff (fun hne => Ne.symm hne) (sortByTime_perm l)).mpr h

theorem sortByTime_sorted (l : List (Keyframe α)) :
    List.Pairwise (fun a b : Keyframe α => a.time ≤ b.time) (sortByTime l) :=
  List.sorted_insertionSort timeLE l

theorem sorted_le_getLast {l : List (Keyframe α)}
    (hs : List.Pairwise (fun a b : Keyframe α => a.time ≤ b.time) l) (hne : l ≠ [])
    {x : Keyframe α} (hx : x ∈ l) : x.time ≤ (l.getLast hne).time := by
  obtain ⟨i, hi, rfl⟩ := List.getElem_of_mem hx
  rw [List.getLast_eq_getElem]
  rcases Nat.lt_or_ge i (l.length - 1) with h | h
  · exact (List.pairwise_iff_getElem.mp hs) i (l.length - 1) hi (by omega) h
  · have hieq : i = l.length - 1 := by omega
    subst hieq
    exact le_refl _

theorem mem_le_duration_sortByTime {l : List (Keyframe α)} {x : Keyframe α} (hx : x ∈ l)
    {c : Option Nat} {t : ℚ} :
    x.time ≤ duration (⟨sortByTime l, c, t⟩ : AnimationSequence α) := by
  have hmem : x ∈ sortByTime l := ((sortByTime_perm l).mem_iff).mpr hx
  have hne : sortByTime l ≠ [] := by
    intro hcon
    rw [hcon] at hmem
    simp at hmem
  rw [duration_def]
  show x.time ≤ (((sortByTime l).getLast?.map Keyframe.time).getD 0 : ℚ)
  rw [List.getLast?_eq_getLast _ hne]
  exact sorted_le_getLast (sortByTime_sorted l) hne hmem

theorem advance_to_inv {s : AnimationSequence α} (hd : 0 ≤ s.duration) {ts : ℚ}
    {out : AnimationSequence α × ℚ} (h : advance_to s ts = some out) :
    TimeInv out.1 ∧ out.1.sequence = s.sequence := by
  unfold advance_to at h
  rw [Option.map_eq_some'] at h
  obtain ⟨s', hupd, hout⟩ := h
  subst hout
  obtain ⟨hseq, htime⟩ := update_frame hupd
  have hdur : s'.duration = s.duration := duration_congr hseq
  refine ⟨⟨?_, ?_⟩, hseq⟩
  · rw [htime]
    split_ifs with h1 h2
    · exact le_refl 0
    · exact hd
    · exact not_lt.mp h1
  · rw [htime, hdur]
    split_ifs with h1 h2
    · exact hd
    · exact le_refl _
    · exact not_lt.mp h2

theorem insert_inv {s : AnimationSequence α} (hti : TimeInv s)
    {kf : Keyframe α} {out : AnimationSequence α × InsertResult} (hk0 : 0 ≤ kf.time)
    (h : insert s kf = some out) : TimeInv out.1 := by
  unfold AnimationSequence.insert at h
  split at h
  · injection h with h
    subst h
    exact hti
  case isFalse hcol =>
    rw [Option.map_eq_some'] at h
    obtain ⟨s', hupd, hout⟩ := h
    subst hout
    obtain ⟨hseq, htime⟩ := update_frame hupd
    obtain ⟨ht0, htd⟩ := hti
    refine ⟨by rw [htime]; exact ht0, ?_⟩
    show s'.time ≤ s'.duration
    rw [htime, duration_congr hseq]
    show s.time ≤ duration { s with sequence := _ }
    split
    case _ last hlast =>
      have hlmem : last ∈ s.sequence := by
        cases hsq : s.sequence with
        | nil => rw [hsq] at hlast; simp at hlast
        | cons a l =>
          rw [hsq, List.getLast?_eq_getLast _ (by simp)] at hlast
          injection hlast with hlast
          rw [← hlast]
          exact List.getLast_mem _
      have hdur : s.duration = last.time := by
        rw [duration_def, hlast]
        rfl
      split
      case isTrue hgt =>
        rw [duration_def]
        show s.time ≤ (((s.sequence ++ [kf]).getLast?.map Keyframe.time).getD 0 : ℚ)
        rw [List.getLast?_concat]
        simp only [Option.map_some', Option.getD_some]
        exact le_of_lt (lt_of_le_of_lt (hdur ▸ htd) hgt)
      case isFalse hng =>
        split
        case isTrue hlt =>
          have hne : s.sequence ≠ [] := by
            intro hcon
            rw [hcon] at hlast
            simp at hlast
          rw [duration_def]
          show s.time ≤ (((kf :: s.sequence).getLast?.map Keyframe.time).getD 0 : ℚ)
          rw [show (kf :: s.sequence).getLast? = s.sequence.getLast? by
            cases hsq : s.sequence with
            | nil => exact absurd hsq hne
            | cons a l => exact List.getLast?_cons_cons]
          rw [← duration_def]
          exact htd
        case isFalse hnlt =>
          exfalso
          have heqt : kf.time = last.time := le_antisymm (not_lt.mp hng) (not_lt.mp hnlt)
          exact (not_has_keyframe_at hcol) last hlmem heqt.symm
    case _ hnone =>
      have hnil : s.sequence = [] := List.getLast?_eq_none_iff.mp hnone
      have hd0 : s.duration = 0 := by rw [duration_def, hnil]; rfl
      calc s.time ≤ 0 := hd0 ▸ htd
      _ ≤ kf.time := hk0
      _ ≤ duration (⟨sortByTime (s.sequence ++ [kf]), s.keyframe, s.time⟩ :
          AnimationSequence α) := mem_le_duration_sortByTime (by simp)
      _ = duration { s with sequence := sortByTime (s.sequence ++ [kf]) } := rfl

theorem sortedTimes_of_seq_eq {s s' : AnimationSequence α}
    (h : s'.sequence = s.sequence) (hs : SortedTimes s) : SortedTimes s' := by
  unfold SortedTimes at *
  rw [h]
  exact hs

theorem nonnegTimes_of_seq_eq {s s' : AnimationSequence α}
    (h : s'.sequence = s.sequence) (hs : NonnegTimes s) : NonnegTimes s' :=
  fun kf hm => hs kf (h ▸ hm)

theorem retain_inv {s : AnimationSequence α} (hnn : NonnegTimes s) (hti : TimeInv s)
    {p : ℚ → Bool} {out : AnimationSequence α × Bool} (h : retain s p = some out) :
    TimeInv out.1 := by
  unfold retain at h
  dsimp only at h
  split at h
  case isTrue hlen =>
    injection h with h
    subst h
    have hfeq : s.sequence.filter (fun k => p k.time) = s.sequence :=
      List.Sublist.eq_of_length (List.filter_sublist _) hlen
    exact ⟨hti.1, by
      show s.time ≤ duration { s with sequence := s.sequence.filter (fun k => p k.time) }
      have hdc : duration { s with sequence := s.sequence.filter (fun k => p k.time) } =
          duration s := duration_congr (by simpa using hfeq)
      rw [hdc]
      exact hti.2⟩
  case isFalse hlen =>
    rw [Option.map_eq_some'] at h
    obtain ⟨s', hupd, hout⟩ := h
    subst hout
    obtain ⟨hseq, htime⟩ := update_frame hupd
    have hnn₁ : NonnegTimes
        ({ s with sequence := s.sequence.filter (fun k => p k.time) }) :=
      fun kf hm => hnn kf (List.mem_of_mem_filter hm)
    have hd₁ : 0 ≤ duration { s with sequence := s.sequence.filter (fun k => p k.time) } :=
      duration_nonneg hnn₁
    constructor
    · rw [htime]
      show 0 ≤ (if _ > _ then _ else _ : ℚ)
      split_ifs
      · exact hd₁
      · exact hti.1
    · rw [htime, duration_congr hseq]
      show (if _ > _ then _ else _ : ℚ) ≤ _
      split_ifs with h1
      · exact le_refl _
      · exact not_lt.mp h1

theorem reverse_eval (s : AnimationSequence α) (hne : s.sequence ≠ [])
    (hd : 0 ≤ s.duration) (hhead : s.sequence.head?.map Keyframe.time = some 0) :
    s.reverse = some ⟨(s.sequence.map
      (fun k => { k with time := s.duration - k.time })).reverse, some 0, 0⟩ := by
  obtain ⟨kf₀, hk⟩ : ∃ kf₀, s.sequence.head? = some kf₀ := by
    cases hs : s.sequence.head? with
    | none => exact absurd (List.head?_eq_none_iff.mp hs) hne
    | some k => exact ⟨k, rfl⟩
  have hk0 : kf₀.time = 0 := by rw [hk] at hhead; simpa using hhead
  have hne' : (s.sequence.map
      (fun k => { k with time := s.duration - k.time })).reverse ≠ [] := by
    simpa using hne
  have hdurR : duration { s with sequence := (s.sequence.map
      (fun k => { k with time := s.duration - k.time })).reverse } = s.duration := by
    rw [duration_def]
    show (((s.sequence.map (fun k => { k with time := s.duration - k.time })).reverse.getLast?).map
      Keyframe.time).getD 0 = s.duration
    rw [List.getLast?_reverse, List.head?_map, hk]
    simp [hk0]
  unfold AnimationSequence.reverse advance_to
  dsimp only
  rw [hdurR]
  rw [if_neg (lt_irrefl (0:ℚ)), if_neg (not_lt.mpr hd)]
  rw [update_of_time_zero hne' rfl]
  rfl

theorem reverse_inv {s : AnimationSequence α} (hsort : SortedTimes s)
    (hnn : NonnegTimes s) {s' : AnimationSequence α} (h : reverse s = some s') :
    SortedTimes s' ∧ NonnegTimes s' ∧ TimeInv s' := by
  unfold AnimationSequence.reverse at h
  dsimp only at h
  rw [Option.map_eq_some'] at h
  obtain ⟨q, hq, hout⟩ := h
  subst hout
  have hnnR : NonnegTimes (⟨(s.sequence.map
      fun k => { k with time := s.duration - k.time }).reverse,
      s.keyframe, s.time⟩ : AnimationSequence α) := by
    intro kf hm
    simp only [List.mem_reverse, List.mem_map] at hm
    obtain ⟨x, hx, rfl⟩ := hm
    show 0 ≤ s.duration - x.time
    rw [sub_nonneg]
    have hne : s.sequence ≠ [] := by
      intro hc
      rw [hc] at hx
      simp at hx
    have hle := sorted_le_getLast (List.Pairwise.imp (fun hlt => le_of_lt hlt) hsort)
      hne hx
    rw [duration_def, List.getLast?_eq_getLast _ hne]
    exact hle
  have hsortR : SortedTimes (⟨(s.sequence.map
      fun k => { k with time := s.duration - k.time }).reverse,
      s.keyframe, s.time⟩ : AnimationSequence α) := by
    show List.Pairwise (fun a b : Keyframe α => a.time < b.time)
      ((s.sequence.map fun k => { k with time := s.duration - k.time }).reverse)
    rw [List.pairwise_reverse, List.pairwise_map]
    exact hsort.imp (fun hlt => sub_lt_sub_left hlt _)
  obtain ⟨hti', hseq'⟩ := advance_to_inv (duration_nonneg hnnR) hq
  exact ⟨sortedTimes_of_seq_eq hseq' hsortR, nonnegTimes_of_seq_eq hseq' hnnR, hti'⟩

theorem insert_many_inv {s : AnimationSequence α} (hnn : NonnegTimes s)
    (hti : TimeInv s) {l : List (Keyframe α)} (hl : ∀ kf ∈ l, 0 ≤ kf.time)
    {out : AnimationSequence α × InsertResult} (h : insert_many s l = some out)
    (hok : out.2 = .ok) : TimeInv out.1 := by
  unfold insert_many at h
  rcases hloop : insertManyLoop s l with ⟨s₁, err⟩
  rw [hloop] at h
  cases err with
  | some t =>
    injection h with h
    subst h
    simp at hok
  | none =>
    rw [Option.map_eq_some'] at h
    obtain ⟨s₂, hupd, hout⟩ := h
    subst hout
    obtain ⟨hseq, htime⟩ := update_frame hupd
    have hs₁seq : s₁.sequence = s.sequence ++ l := loop_none_seq hloop
    have hs₁time : s₁.time = s.time := by
      have hlf : (insertManyLoop s l).1.keyframe = s.keyframe ∧
          (insertManyLoop s l).1.time = s.time := loop_frame
      rw [hloop] at hlf
      exact hlf.2
    constructor
    · show 0 ≤ s₂.time
      rw [htime]
      show 0 ≤ s₁.time
      rw [hs₁time]
      exact hti.1
    · rw [htime, duration_congr hseq]
      show s₁.time ≤ duration { s₁ with sequence := sortByTime s₁.sequence }
      rw [hs₁time, hs₁seq]
      rcases hsq : s.sequence with _ | ⟨a, rest⟩
      · have hd0 : s.duration = 0 := by
          rw [duration_def, hsq]
          rfl
        have hnn' : NonnegTimes (⟨sortByTime ([] ++ l), s₁.keyframe, s₁.time⟩ :
            AnimationSequence α) := by
          intro kf hm
          have : kf ∈ [] ++ l := ((sortByTime_perm _).mem_iff).mp hm
          exact hl kf (by simpa using this)
        calc s.time ≤ 0 := hd0 ▸ hti.2
        _ ≤ _ := duration_nonneg hnn'
      · have hne : s.sequence ≠ [] := by rw [hsq]; simp
        have hlmem : s.sequence.getLast hne ∈ s.sequence ++ l :=
          List.mem_append_left _ (List.getLast_mem hne)
        have hdur : s.duration = (s.sequence.getLast hne).time := by
          rw [duration_def, List.getLast?_eq_getLast _ hne]
          rfl
        calc s.time ≤ (s.sequence.getLast hne).time := hdur ▸ hti.2
        _ ≤ _ := by
          rw [← hsq]
          exact mem_le_duration_sortByTime hlmem

theorem aamr_inv :
    ∀ (fuel : Nat) {s : AnimationSequence α} {d : ℚ}
      {out : AnimationSequence α × Bool},
      SortedTimes s → NonnegTimes s →
      advance_and_maybe_reverse fuel s d = some out → TimeInv out.1 := by
  intro fuel
  induction fuel with
  | zero =>
    intro s d out _ _ h
    exact absurd h (by simp [advance_and_maybe_reverse])
  | succ n ih =>
    intro s d out hsort hnn h
    simp only [advance_and_maybe_reverse] at h
    rw [Option.bind_eq_some] at h
    obtain ⟨p, hp, h⟩ := h
    obtain ⟨htiP, hseqP⟩ := advance_to_inv (duration_nonneg hnn) hp
    have hsortP : SortedTimes p.1 := sortedTimes_of_seq_eq hseqP hsort
    have hnnP : NonnegTimes p.1 := nonnegTimes_of_seq_eq hseqP hnn
    split at h
    · injection h with h
      subst h
      exact htiP
    · rw [Option.bind_eq_some] at h
      obtain ⟨s₂, hs₂, h⟩ := h
      obtain ⟨hsort₂, hnn₂, hti₂⟩ := reverse_inv hsortP hnnP hs₂
      rw [Option.bind_eq_some] at h
      obtain ⟨s₃, hs₃, h⟩ := h
      have hfacts : SortedTimes s₃ ∧ NonnegTimes s₃ := by
        split at hs₃
        · rw [Option.map_eq_some'] at hs₃
          obtain ⟨q, hq, hq2⟩ := hs₃
          subst hq2
          obtain ⟨_, hseq⟩ := advance_to_inv (duration_nonneg hnn₂) hq
          exact ⟨sortedTimes_of_seq_eq hseq hsort₂, nonnegTimes_of_seq_eq hseq hnn₂⟩
        · injection hs₃ with hs₃
          subst hs₃
          exact ⟨hsort₂, hnn₂⟩
      rw [Option.map_eq_some'] at h
      obtain ⟨r, hr, hout⟩ := h
      subst hout
      have := ih hfacts.1 hfacts.2 hr
      exact this

theorem wrap_inv :
    ∀ (fuel : Nat) {s : AnimationSequence α} {d : ℚ}
      {out : AnimationSequence α × Bool},
      NonnegTimes s →
      advance_and_maybe_wrap fuel s d = some out → TimeInv out.1 := by
  intro fuel
  induction fuel with
  | zero =>
    intro s d out _ h
    exact absurd h (by simp [advance_and_maybe_wrap])
  | succ n ih =>
    intro s d out hnn h
    simp only [advance_and_maybe_wrap] at h
    rw [Option.bind_eq_some] at h
    obtain ⟨p, hp, h⟩ := h
    obtain ⟨htiP, hseqP⟩ := advance_to_inv (duration_nonneg hnn) hp
    have hnnP : NonnegTimes p.1 := nonnegTimes_of_seq_eq hseqP hnn
    split at h
    · injection h with h
      subst h
      exact htiP
    · rw [Option.bind_eq_some] at h
      obtain ⟨q, hq, h⟩ := h
      obtain ⟨htiQ, hseqQ⟩ := advance_to_inv (duration_nonneg hnnP) hq
      have hnnQ : NonnegTimes q.1 := nonnegTimes_of_seq_eq hseqQ hnnP
      rw [Option.map_eq_some'] at h
      obtain ⟨r, hr, hout⟩ := h
      subst hout
      have := ih hnnQ hr
      exact this

theorem advance_by_new_one : (new : AnimationSequence ℚ).advance_by 1 = some (new, 1) := by
  show advance_to _ _ = _
  norm_num [advance_to, duration, update_current_keyframe, new]

theorem reverse_new : (new : AnimationSequence ℚ).reverse = some new := by
  norm_num [reverse, advance_to, duration, update_current_keyframe, new]

/-- Claim C1: `tween_to(self, next, time)` follows the source's ordered match arms:
it returns `self.value` when `time < self.time`; failing that, `next.value` when
`time > next.time`; failing that, `next.value` when `next.time < self.time` (for exact
rational times this guard can no longer fire, so the conjunct is vacuous — it is kept
because the claim states the arm); otherwise it blends `self.value` toward `next.value`
at eased progress `self.function ((time - self.time) / (next.time - self.time))`.
With keyframes `(0, t=0)` and `(10, t=1)` under a Linear curve, querying at `-0.5`
gives `0`, at `1.5` gives `10` and at `0.5` gives `5`. -/
theorem tween_to_policy :
    (∀ (α : Type) [CanTween α] (self next : Keyframe α) (t : ℚ),
      (t < self.time → self.tween_to next t = self.value) ∧
      (¬ t < self.time → t > next.time → self.tween_to next t = next.value) ∧
      (¬ t < self.time → ¬ t > next.time → next.time < self.time →
        self.tween_to next t = next.value) ∧
      (¬ t < self.time → ¬ t > next.time → ¬ next.time < self.time →
        self.tween_to next t =
          CanTween.ease self.value next.value
            (self.function ((t - self.time) / (next.time - self.time))))) ∧
    Keyframe.tween_to (kfQ 0 0) (kfQ 10 1) (-(1/2)) = 0 ∧
    Keyframe.tween_to (kfQ 0 0) (kfQ 10 1) (3/2) = 10 ∧
    Keyframe.tween_to (kfQ 0 0) (kfQ 10 1) (1/2) = 5 := by
  refine ⟨?_, ?_, ?_, ?_⟩
  · intro α _ self next t
    refine ⟨?_, ?_, ?_, ?_⟩
    · intro h1; unfold Keyframe.tween_to; rw [if_pos h1]
    · intro h1 h2; unfold Keyframe.tween_to; rw [if_neg h1, if_pos h2]
    · intro h1 h2 h3; unfold Keyframe.tween_to; rw [if_neg h1, if_neg h2, if_pos h3]
    · intro h1 h2 h3
      unfold Keyframe.tween_to
      rw [if_neg h1, if_neg h2, if_neg h3,
        ease_scaled_linear (sub_nonneg.mpr (not_lt.mp h1))
          (sub_le_sub_right (not_lt.mp h2) self.time)]
  · norm_num [Keyframe.tween_to, kfQ, Keyframe.new]
  · norm_num [Keyframe.tween_to, kfQ, Keyframe.new]
  · norm_num [Keyframe.tween_to, kfQ, Keyframe.new, ease_with_scaled_time, ease,
      ease_with_unbounded_time, Linear, canTween_rat_def, floatEase, as_t, f64Bounds]

theorem tween_to_policy_witness :
    Keyframe.tween_to (kfQ 3 0) (kfQ 7 2) 1 =
      CanTween.ease (kfQ 3 0).value (kfQ 7 2).value
        ((kfQ 3 0).function ((1 - (kfQ 3 0).time) / ((kfQ 7 2).time - (kfQ 3 0).time))) :=
  (tween_to_policy.1 ℚ (kfQ 3 0) (kfQ 7 2) 1).2.2.2 (by norm_num [kfQ, Keyframe.new])
    (by norm_num [kfQ, Keyframe.new]) (by norm_num [kfQ, Keyframe.new])

/-- Claim C2 (code bug): inserting a keyframe at time 1 into the sequence with times
`[0, 2]` takes the fast "prepend" path (because `1 < 2`, the *last* entry's time) and
produces the entry order `[1, 0, 2]`, which is not sorted — contradicting the claim
that entries remain strictly sorted after every mutation. -/
theorem insert_middle_breaks_sort :
    ((fromVec [kfQ 0 0, kfQ 0 2]).bind fun s =>
      (insert s (kfQ 0 1)).map fun p => p.1.sequence.map Keyframe.time) = some [1, 0, 2] ∧
    ¬ List.Pairwise (fun a b : ℚ => a < b) [1, 0, 2] := by
  constructor
  · rfl
  · decide

/-- Claim C3 (code bug): on a zero-duration sequence (here the empty sequence) with a
nonzero delta, `advance_and_maybe_reverse` never returns: `advance_by` reports
overflow 1 at every step, `reverse` is a no-op, and the method re-invokes itself with
the same arguments.  In the fuel model the call returns `none` at every fuel value,
i.e. the recursion never terminates, contradicting the claim's termination guard. -/
theorem advance_and_maybe_reverse_diverges :
    ∀ fuel, advance_and_maybe_reverse fuel (new : AnimationSequence ℚ) 1 = none := by
  intro fuel
  induction fuel with
  | zero => rfl
  | succ n ih =>
    simp only [advance_and_maybe_reverse, advance_by_new_one, Option.some_bind]
    norm_num [reverse_new, ih]

/-- Claim C4 (code bug): `clear()` on a sequence holding a single keyframe at time 0
panics.  `retain` empties the vector and calls `update_current_keyframe`, which sets
the stale cursor to `None` but then still evaluates `self.sequence[0]` on the emptied
vector — an out-of-bounds index.  In the model the panic is `none`, so the claim that
`clear` is total on every reachable state fails. -/
theorem clear_panics : (fromVec [kfQ 0 0]).bind clear = none := rfl

/-- Claim C5 counterexample: inserting a single keyframe at time 1 into a new sequence
leaves `playback_time = 0` with cursor `Some 0`, although no entry's time is
`≤ playback_time` (`lastLE` — the spec's "greatest-indexed entry whose time is ≤
playback_time" — is `none`).  The claim says the cursor is `None` exactly then. -/
theorem cursor_some_zero_before_first :
    (insert (new : AnimationSequence ℚ) (kfQ 0 1)).map
      (fun p => (p.1.keyframe, lastLE p.1.time p.1.sequence, p.1.time, p.2)) =
      some (some 0, none, 0, .ok) := rfl

/-- Claim C5 (amended): for a sequence with strictly sorted, nonnegative entry times,
`update_current_keyframe` (the function that recomputes the cursor after every
mutation and seek) leaves entries and playback time unchanged and, whenever some entry
has time `≤ playback_time`, sets the cursor to the greatest-indexed such entry; when
no entry qualifies the cursor is `None` *or* `Some 0` (not always `None`, as the
counterexample shows). -/
theorem update_cursor :
    ∀ (α : Type) (s s' : AnimationSequence α),
      SortedTimes s → NonnegTimes s →
      update_current_keyframe s = some s' →
      s'.sequence = s.sequence ∧ s'.time = s.time ∧
      (∀ j, lastLE s.time s.sequence = some j → s'.keyframe = some j) ∧
      (lastLE s.time s.sequence = none → s'.keyframe = none ∨ s'.keyframe = some 0) := by
  intro α s s' hs hn h
  obtain ⟨h1, h2⟩ := update_frame h
  obtain ⟨h3, h4⟩ := update_cursor_aux hs hn h
  exact ⟨h1, h2, h3, h4⟩

theorem update_cursor_witness :
    (⟨[kfQ 5 0, kfQ 6 2], some 0, 1⟩ : AnimationSequence ℚ).keyframe = some 0 :=
  (update_cursor ℚ ⟨[kfQ 5 0, kfQ 6 2], some 0, 1⟩ ⟨[kfQ 5 0, kfQ 6 2], some 0, 1⟩
    (by norm_num [SortedTimes, List.pairwise_cons, kfQ, Keyframe.new])
    (by norm_num [NonnegTimes, kfQ, Keyframe.new]) rfl).2.2.1 0 rfl

/-- Claim C6: for scalar float types, `CanTween::ease(from, to, t)` equals
`from + (to - from) * t` computed in wide precision and clamped (saturated) to the
type's representable range `[min, max]`; the model's `f64` instance is exactly the
bounded ease at the `f64` range, and easing past `f32::MAX` saturates to `f32::MAX`. -/
theorem scalar_ease :
    (∀ F : FloatBounds, F.fmin ≤ F.fmax →
      ∀ a b t : ℚ, floatEase F a b t = specScalarEase F a b t) ∧
    (∀ a b t : ℚ, CanTween.ease a b t = floatEase f64Bounds a b t) ∧
    floatEase f32Bounds 0 f32Bounds.fmax 2 = f32Bounds.fmax := by
  refine ⟨?_, fun a b t => rfl, ?_⟩
  · intro F hF a b t
    unfold floatEase specScalarEase as_t
    split_ifs with h1 h2
    · rw [max_eq_right (hF.trans h1.le), min_eq_left h1.le]
    · rw [max_eq_left h2.le, min_eq_right hF]
    · rw [max_eq_right (not_lt.mp h2), min_eq_right (not_lt.mp h1)]
  · norm_num [floatEase, as_t, f32Bounds]

theorem scalar_ease_witness :
    floatEase f64Bounds 3 5 (1/2) = specScalarEase f64Bounds 3 5 (1/2) :=
  scalar_ease.1 f64Bounds (by norm_num [f64Bounds]) 3 5 (1/2)

/-- Claim C7 counterexample: starting from the sequence with times `[0, 5]` at
playback time 4, a failed `insert_many([t=3, t=0])` pushes the keyframe at time 3,
aborts on the collision at time 0 without sorting or clamping, and leaves
`duration() = 3 < playback_time = 4` — violating `0 ≤ playback_time ≤ duration`. -/
theorem insert_many_error_breaks_bounds :
    (((fromVec [kfQ 0 0, kfQ 0 5]).bind fun s => advance_to s 4).bind fun p =>
      (insert_many p.1 [kfQ 0 3, kfQ 0 0]).map fun q =>
        (q.1.time, q.1.duration, q.2)) = some (4, 3, .timeCollision 0) ∧ ¬ ((4:ℚ) ≤ 3) := by
  constructor
  · rfl
  · norm_num

/-- Claim C7 (amended): for a sequence satisfying the documented invariants (strictly
sorted nonnegative times, playback time within bounds), every listed operation that
returns — `advance_to`, `advance_by`, `advance_and_maybe_reverse`,
`advance_and_maybe_wrap`, `insert`, *successful* `insert_many`, `retain`, `remove`,
`clear`, `reverse` — re-establishes `0 ≤ playback_time ≤ duration`.  (A *failed*
`insert_many` violates it, see the counterexample.) -/
theorem playback_time_bounds :
    ∀ (α : Type) (s : AnimationSequence α),
      SortedTimes s → NonnegTimes s → TimeInv s →
      (∀ ts out, advance_to s ts = some out → TimeInv out.1) ∧
      (∀ d out, advance_by s d = some out → TimeInv out.1) ∧
      (∀ fuel d out, advance_and_maybe_reverse fuel s d = some out → TimeInv out.1) ∧
      (∀ fuel d out, advance_and_maybe_wrap fuel s d = some out → TimeInv out.1) ∧
      (∀ kf out, 0 ≤ kf.time → insert s kf = some out → TimeInv out.1) ∧
      (∀ l out, (∀ kf ∈ l, 0 ≤ kf.time) → insert_many s l = some out → out.2 = .ok →
        TimeInv out.1) ∧
      (∀ p out, retain s p = some out → TimeInv out.1) ∧
      (∀ t out, remove s t = some out → TimeInv out.1) ∧
      (∀ s', clear s = some s' → TimeInv s') ∧
      (∀ s', reverse s = some s' → TimeInv s') := by
  intro α s hsort hnn hti
  refine ⟨?_, ?_, ?_, ?_, ?_, ?_, ?_, ?_, ?_, ?_⟩
  · intro ts out h
    exact (advance_to_inv (duration_nonneg hnn) h).1
  · intro d out h
    exact (advance_to_inv (duration_nonneg hnn) h).1
  · intro fuel d out h
    exact aamr_inv fuel hsort hnn h
  · intro fuel d out h
    exact wrap_inv fuel hnn h
  · intro kf out hk0 h
    exact insert_inv hti hk0 h
  · intro l out hl h hok
    exact insert_many_inv hnn hti hl h hok
  · intro p out h
    exact retain_inv hnn hti h
  · intro t out h
    exact retain_inv hnn hti h
  · intro s' h
    unfold clear at h
    rw [Option.map_eq_some'] at h
    obtain ⟨out, hout, rfl⟩ := h
    exact retain_inv hnn hti hout
  · intro s' h
    exact (reverse_inv hsort hnn h).2.2

theorem playback_time_bounds_witness :
    TimeInv (⟨[kfQ 0 0], some 0, 0⟩ : AnimationSequence ℚ) :=
  (playback_time_bounds ℚ ⟨[kfQ 0 0, kfQ 7 2], some 0, 0⟩
    (by norm_num [SortedTimes, List.pairwise_cons, kfQ, Keyframe.new])
    (by norm_num [NonnegTimes, kfQ, Keyframe.new])
    ⟨le_refl 0, by
      rw [show duration (⟨[kfQ 0 0, kfQ 7 2], some 0, 0⟩ : AnimationSequence ℚ) = 2
        from rfl]
      norm_num⟩).2.2.2.2.2.2.2.1 2 (⟨[kfQ 0 0], some 0, 0⟩, true) rfl

/-- Claim C8 counterexample: for the sequence `[(3, t=1), (4, t=2)]` (first keyframe
not at time 0), reversing twice yields pairs `[(3, 0), (4, 1)]` with duration 1,
not the original `[(3, 1), (4, 2)]` with duration 2 — `reverse` is not an
involution. -/
theorem reverse_not_involution :
    ((fromVec [kfQ 3 1, kfQ 4 2]).bind fun s0 =>
      (reverse s0).bind fun s1 => (reverse s1).map fun s2 => (pairsVT s2, s2.duration))
      = some ([(3, 0), (4, 1)], 1) ∧
    (fromVec [kfQ 3 1, kfQ 4 2]).map (fun s0 => (pairsVT s0, s0.duration))
      = some ([(3, 1), (4, 2)], 2) := by
  have h1 : fromVec [kfQ 3 1, kfQ 4 2] =
      some ⟨[kfQ 3 1, kfQ 4 2], some 0, 0⟩ := rfl
  have h2 : reverse (⟨[kfQ 3 1, kfQ 4 2], some 0, 0⟩ : AnimationSequence ℚ) =
      some ⟨[⟨4, 0, Linear⟩, ⟨3, 1, Linear⟩], some 0, 0⟩ := by
    norm_num [reverse, advance_to, duration, update_current_keyframe, kfQ, Keyframe.new]
  have h3 : reverse (⟨[⟨4, 0, Linear⟩, ⟨3, 1, Linear⟩], some 0, 0⟩ : AnimationSequence ℚ) =
      some ⟨[⟨3, 0, Linear⟩, ⟨4, 1, Linear⟩], some 0, 0⟩ := by
    norm_num [reverse, advance_to, duration, update_current_keyframe]
  rw [h1]
  constructor
  · simp only [Option.some_bind, h2, h3, Option.map_some]
    norm_num [pairsVT, duration, kfQ, Keyframe.new]
  · norm_num [pairsVT, duration, kfQ, Keyframe.new]

/-- Claim C8 (amended): for a nonempty sequence with nonnegative times whose *first
keyframe is at time 0*, a single `reverse` remaps every entry time through
`duration - time` (reversing the order) and resets the playback time to 0, and
reversing twice restores the original `(value, time)` pairs and the original
duration. -/
theorem reverse_twice :
    ∀ (α : Type) (s : AnimationSequence α),
      s.sequence ≠ [] →
      (∀ kf ∈ s.sequence, 0 ≤ kf.time) →
      s.sequence.head?.map Keyframe.time = some 0 →
      (s.reverse.map fun s₁ => (s₁.sequence.map fun k => (k.value, k.time), s₁.time)) =
        some ((s.sequence.map fun k => (k.value, s.duration - k.time)).reverse, 0) ∧
      ((s.reverse.bind AnimationSequence.reverse).map fun s₂ =>
        (s₂.sequence.map fun k => (k.value, k.time), s₂.duration)) =
        some (s.sequence.map fun k => (k.value, k.time), s.duration) := by
  intro α s hne hnn hhead
  have hl : s.sequence.getLast? = some (s.sequence.getLast hne) :=
    List.getLast?_eq_getLast _ hne
  have hlast : (s.sequence.getLast hne).time = s.duration := by
    rw [duration_def, hl]; rfl
  have hd : 0 ≤ s.duration := by
    rw [← hlast]; exact hnn _ (List.getLast_mem hne)
  have h1 := reverse_eval s hne hd hhead
  have hne₁ :
      (s.sequence.map fun k => { k with time := s.duration - k.time }).reverse ≠ [] := by
    simpa using hne
  have hL₁head :
      (s.sequence.map fun k => { k with time := s.duration - k.time }).reverse.head? =
        some { s.sequence.getLast hne with time := s.duration - (s.sequence.getLast hne).time } := by
    rw [List.head?_reverse, List.getLast?_map, hl]; rfl
  obtain ⟨kf₀, hk⟩ : ∃ kf₀, s.sequence.head? = some kf₀ := by
    cases hs : s.sequence.head? with
    | none => exact absurd (List.head?_eq_none_iff.mp hs) hne
    | some k => exact ⟨k, rfl⟩
  have hk0 : kf₀.time = 0 := by rw [hk] at hhead; simpa using hhead
  have hs₁dur :
      duration ⟨(s.sequence.map fun k => { k with time := s.duration - k.time }).reverse,
        some 0, 0⟩ = s.duration := by
    rw [duration_def]
    show (((s.sequence.map fun k => { k with time := s.duration - k.time }).reverse.getLast?).map
      Keyframe.time).getD 0 = s.duration
    rw [List.getLast?_reverse, List.head?_map, hk]
    simp [hk0]
  have hhead₁ :
      (⟨(s.sequence.map fun k => { k with time := s.duration - k.time }).reverse,
        some 0, 0⟩ : AnimationSequence α).sequence.head?.map Keyframe.time = some 0 := by
    show ((s.sequence.map fun k => { k with time := s.duration - k.time }).reverse.head?).map
      Keyframe.time = some 0
    rw [hL₁head]
    simp [hlast]
  have h2 := reverse_eval
    ⟨(s.sequence.map fun k => { k with time := s.duration - k.time }).reverse, some 0, 0⟩
    hne₁ (by rw [hs₁dur]; exact hd) hhead₁
  rw [hs₁dur] at h2
  constructor
  · rw [h1]
    simp only [Option.map_some', List.map_reverse, List.map_map]
    rfl
  · rw [h1]
    show ((AnimationSequence.reverse _).map _) = _
    rw [h2]
    simp only [Option.map_some']
    have hA :
        (((s.sequence.map fun k => { k with time := s.duration - k.time }).reverse.map
          fun k => { k with time := s.duration - k.time }).reverse.map
            fun k => ((k.value, k.time) : α × ℚ)) =
          s.sequence.map fun k => (k.value, k.time) := by
      rw [List.map_reverse, List.map_map, List.map_reverse, List.reverse_reverse,
        List.map_map]
      exact List.map_congr_left (fun k _ => by simp [Function.comp, sub_sub_cancel])
    have hB :
        duration ⟨((s.sequence.map fun k => { k with time := s.duration - k.time }).reverse.map
          fun k => { k with time := s.duration - k.time }).reverse, some 0, 0⟩ = s.duration := by
      rw [duration_def]
      show ((((s.sequence.map fun k => { k with time := s.duration - k.time }).reverse.map
        fun k => { k with time := s.duration - k.time }).reverse.getLast?).map
          Keyframe.time).getD 0 = s.duration
      rw [List.getLast?_reverse, List.head?_map, hL₁head]
      simp [sub_sub_cancel, hlast]
    rw [hA, hB]

/-- Claim C9 counterexample: constructing from the iterator
`[(0, t=0), (1, t=0), (2, t=1)]` aborts at the collision at time 0 and discards the
non-colliding item `(2, t=1)` as well: the result holds only `[(0, t=0)]`, not one
entry per distinct time of the input. -/
theorem fromIterator_drops_after_collision :
    (fromIterator [kfQ 0 0, kfQ 1 0, kfQ 2 1]).map pairsVT = some [(0, 0)] := rfl

/-- Claim C9 (amended): iterator construction always returns a sequence (the collision
error is swallowed rather than propagated), the result never holds two entries with
the same time, and when the input has no duplicate times every item is inserted (the
result is the input sorted by time).  On a collision, however, the batch is aborted:
the colliding item and everything after it are discarded (see the counterexample). -/
theorem fromIterator_props :
    ∀ (α : Type) (l : List (Keyframe α)),
      (fromIterator l).isSome = true ∧
      ∀ s, fromIterator l = some s →
        List.Pairwise (fun a b => a.time ≠ b.time) s.sequence ∧
        (List.Pairwise (fun a b => a.time ≠ b.time) l → s.sequence = sortByTime l) := by
  intro α l
  unfold fromIterator insert_many
  rcases hl : insertManyLoop (new : AnimationSequence α) l with ⟨s₁, err⟩
  have hpw₁ : List.Pairwise (fun a b : Keyframe α => a.time ≠ b.time) s₁.sequence := by
    have hlp : List.Pairwise (fun a b : Keyframe α => a.time ≠ b.time)
        (insertManyLoop (new : AnimationSequence α) l).1.sequence :=
      loop_pairwise (by simp [new])
    rwa [hl] at hlp
  have hkf₁ : s₁.keyframe = none := by
    have hlf : (insertManyLoop (new : AnimationSequence α) l).1.keyframe =
        (new : AnimationSequence α).keyframe ∧
        (insertManyLoop (new : AnimationSequence α) l).1.time =
        (new : AnimationSequence α).time := loop_frame
    rw [hl] at hlf
    exact hlf.1
  cases err with
  | some t =>
    constructor
    · simp
    · intro s hs
      simp only [Option.map_some'] at hs
      injection hs with hs
      subst hs
      refine ⟨hpw₁, ?_⟩
      intro hpl
      exfalso
      have hap : insertManyLoop (new : AnimationSequence α) l =
          ({ (new : AnimationSequence α) with
              sequence := (new : AnimationSequence α).sequence ++ l }, none) :=
        loop_all_pushed (by simp [new]) hpl
      rw [hl] at hap
      injection hap with _ h2
      exact Option.noConfusion h2
  | none =>
    have hupd : (update_current_keyframe
        { s₁ with sequence := sortByTime s₁.sequence }).isSome = true :=
      update_isSome_of_keyframe_none (by simpa using hkf₁)
    rcases hu : update_current_keyframe { s₁ with sequence := sortByTime s₁.sequence }
      with _ | s₂
    · rw [hu] at hupd; simp at hupd
    constructor
    · simpa using hupd
    · intro s hs
      simp only [hu, Option.map_some'] at hs
      injection hs with hs
      subst hs
      have hseq : s₂.sequence = sortByTime s₁.sequence := (update_frame hu).1
      constructor
      · rw [hseq]
        exact sortByTime_pairwise_ne hpw₁
      · intro hpl
        have hs₁seq : s₁.sequence = l := by
          have hns : s₁.sequence = (new : AnimationSequence α).sequence ++ l :=
            loop_none_seq hl
          simpa [new] using hns
        rw [hseq, hs₁seq]

theorem fromIterator_props_witness :
    List.Pairwise (fun a b : Keyframe ℚ => a.time ≠ b.time)
      (⟨[kfQ 0 0], none, 0⟩ : AnimationSequence ℚ).sequence :=
  ((fromIterator_props ℚ [kfQ 0 0, kfQ 1 0, kfQ 2 1]).2 ⟨[kfQ 0 0], none, 0⟩ rfl).1

/-- Claim C10: `insert` — whether it succeeds or reports a `TimeCollision` — leaves
the playback position unchanged (`time()` after equals `time()` before), and on a
collision the whole sequence state is returned untouched. -/
theorem insert_preserves_time :
    ∀ (α : Type) (s : AnimationSequence α) (kf : Keyframe α)
      (out : AnimationSequence α × InsertResult),
      insert s kf = some out →
      out.1.time = s.time ∧ ∀ t, out.2 = .timeCollision t → out.1 = s := by
  intro α s kf out h
  unfold AnimationSequence.insert at h
  split at h
  · injection h with h; subst h
    exact ⟨rfl, fun t _ => rfl⟩
  · rw [Option.map_eq_some'] at h
    obtain ⟨s', hs', hout⟩ := h
    subst hout
    refine ⟨(update_frame hs').2, fun t ht => absurd ht (by simp)⟩

theorem insert_preserves_time_witness :
    (⟨[kfQ 0 1], some 0, 0⟩ : AnimationSequence ℚ).time = (new : AnimationSequence ℚ).time :=
  (insert_preserves_time ℚ new (kfQ 0 1) (⟨[kfQ 0 1], some 0, 0⟩, .ok) rfl).1

/-- Witness for the amended C8 theorem at a concrete two-keyframe sequence. -/
theorem reverse_twice_witness :
    (((⟨[kfQ 3 0, kfQ 4 2], some 0, 0⟩ : AnimationSequence ℚ).reverse.bind
      AnimationSequence.reverse).map fun s₂ =>
        (s₂.sequence.map fun k => (k.value, k.time), s₂.duration)) =
      some ((⟨[kfQ 3 0, kfQ 4 2], some 0, 0⟩ : AnimationSequence ℚ).sequence.map
          (fun k => (k.value, k.time)),
        (⟨[kfQ 3 0, kfQ 4 2], some 0, 0⟩ : AnimationSequence ℚ).duration) :=
  (reverse_twice ℚ ⟨[kfQ 3 0, kfQ 4 2], some 0, 0⟩ (by simp)
    (by norm_num [kfQ, Keyframe.new]) (by rfl)).2

end KeyframeLib
